import Mathlib

/-!
Shallow embedding of the thaumcraft4 aspects connection helper
(`src/recipes.rs`, `src/dao.rs`, `src/math.rs`, `src/pathes.rs`).

Modelling conventions:
* `ElementHandle` is a name-keyed value type wrapping a string; we model it as
  `String` directly (equality/hash/ordering on the name).
* The sqlite store is modelled by its three relations, each as a list of rows
  in table order: `recipes (name, component_a, component_b)`,
  `elements (name, base_value)`, `elements_holding (name, num)`.
* `f64` values are modelled as exact rationals `ℚ`.  The exponential used by
  the saturation branch of the weight curve is passed in as an explicit
  function parameter `expQ` standing for `f64::exp`.
* Rust `HashSet` values are modelled as duplicate-free lists in insertion
  order (a deterministic stand-in for the unspecified hash iteration order).
* Rust `Vec` stacks (push/pop at the end) are modelled as Lean lists with the
  *head* playing the role of the vector's last element.
* The two source loops without a structural termination argument
  (`constructing_tree`'s level loop and `calc_path`'s backtracking loop) are
  modelled with an explicit fuel parameter; `none` means the fuel ran out and
  corresponds to no behaviour of the source.
* A Rust panic (`unwrap` on `None`, index underflow) is modelled by the
  explicit `panicked` outcome.
-/

deriving instance DecidableEq for Except

namespace T4ACH

/-- Errors of `dao.rs` (`enum Errors`); the sqlx transport error cannot occur
in the relational model and is omitted. -/
inductive DBErrors where
  | ExpectOneResult (table_name : String)
  | FetchedZeroRow (s : String)
  | ElementNotFound (s : String)
  deriving DecidableEq, Repr

/-- Errors of `math.rs` (`enum MathError`). -/
inductive MathError where
  | Domain (valid_region : String) (inputted : ℚ)
  | DivideByZero (formula : String)
  deriving DecidableEq, Repr

/-- Errors of `errors.rs` (`enum T4ACHError`); locations and backtraces are
not modelled. -/
inductive T4ACHError where
  | Io
  | ParsingRecipes (line_number : Nat)
  | Math (source : MathError)
  | Database (source : DBErrors)
  | ElementNotFound (element_name : String) (ctx : String)
  deriving DecidableEq, Repr

/-- The persistent store consumed through `dao.rs`: the three relations of the
sqlite database, rows in table order. -/
structure Store where
  recipes : List (String × String × String)
  elements : List (String × ℚ)
  holdings : List (String × ℚ)
  deriving DecidableEq, Repr

/-- DAO::get_element_components: `SELECT component_a,component_b FROM recipes
WHERE name=?`; exactly one row yields the pair, zero rows yield
`FetchedZeroRow`, several rows yield `ExpectOneResult`. -/
def get_element_components (dao : Store) (handle : String) :
    Except DBErrors (String × String) :=
  match dao.recipes.filter (fun r => r.1 = handle) with
  | [r] => .ok (r.2.1, r.2.2)
  | [] => .error (.FetchedZeroRow handle)
  | _ => .error (.ExpectOneResult "recipes")

/-- DAO::get_what_component_can_build: names of recipes using the element as
`component_a`, then those using it as `component_b`. -/
def get_what_component_can_build (dao : Store) (component : String) :
    List String :=
  (dao.recipes.filter (fun r => r.2.1 = component)).map (fun r => r.1)
    ++ (dao.recipes.filter (fun r => r.2.2 = component)).map (fun r => r.1)

/-- DAO::get_element_base_value: exactly one `elements` row expected. -/
def get_element_base_value (dao : Store) (ele : String) : Except DBErrors ℚ :=
  match dao.elements.filter (fun r => r.1 = ele) with
  | [r] => .ok r.2
  | _ => .error (.ExpectOneResult ("elements: name=" ++ ele))

/-- DAO::get_element_num_holding: exactly one `elements_holding` row
expected. -/
def get_element_num_holding (dao : Store) (handle : String) :
    Except DBErrors ℚ :=
  match dao.holdings.filter (fun r => r.1 = handle) with
  | [r] => .ok r.2
  | _ => .error (.ExpectOneResult "elements_holding")

/-- HashSet::insert modelled on duplicate-free lists in insertion order. -/
def setInsert (s : List String) (x : String) : List String :=
  if x ∈ s then s else s ++ [x]

/-- HashSet::extend modelled on duplicate-free lists in insertion order. -/
def setExtend (s : List String) (xs : List String) : List String :=
  xs.foldl setInsert s

/-- pathes.rs `get_relatives`: the recipe components of `ele` (a zero-row
`FetchedZeroRow` result is swallowed — primitive element — while any other
error is wrapped and propagated) extended with every element whose recipe
uses `ele`. -/
def get_relatives (dao : Store) (ele : String) :
    Except T4ACHError (List String) :=
  match get_element_components dao ele with
  | .ok (component_a, component_b) =>
      .ok (setExtend (setInsert (setInsert [] component_a) component_b)
        (get_what_component_can_build dao ele))
  | .error (.FetchedZeroRow _) =>
      .ok (setExtend [] (get_what_component_can_build dao ele))
  | .error e => .error (.Database e)

/-- pathes.rs `is_two_eles_connected`: membership of `b` in the relatives of
`a`. -/
def is_two_eles_connected (dao : Store) (a b : String) :
    Except T4ACHError Bool :=
  match get_relatives dao a with
  | .ok relative_eles => .ok (relative_eles.contains b)
  | .error e => .error e

/-- pathes.rs `struct Path`; the field `end` is a Lean keyword and is spelled
`end_`. -/
structure Path where
  start : String
  end_ : String
  path : List String
  cached_weight : Option ℚ
  deriving DecidableEq, Repr

/-- Path::new. -/
def Path.new (start end_ : String) : Path :=
  { start := start, end_ := end_, path := [], cached_weight := none }

/-- Path::push. -/
def Path.push (p : Path) (ele : String) : Path :=
  { p with path := p.path ++ [ele] }

/-- The `impl PartialEq for Path`: equality ignores the cached weight. -/
def Path.eqFn (p other : Path) : Bool :=
  p.start = other.start && p.end_ = other.end_ && p.path = other.path

/-- The `impl Hash for Path` feeds exactly the start, the intermediate
sequence and the end into the hasher, in that order; two paths feeding the
same sequence receive the same hash. -/
def Path.hashInput (p : Path) : List String :=
  p.start :: p.path ++ [p.end_]

/-- The pairwise connectivity loop inside `is_path_viable` (`for i in
0..a.len()-1`): the first disconnected pair yields `Ok(false)`, a store
failure aborts. -/
def viableChain (dao : Store) : List String → Except T4ACHError Bool
  | [] => .ok true
  | [_] => .ok true
  | x :: y :: rest =>
    match is_two_eles_connected dao x y with
    | .error e => .error e
    | .ok false => .ok false
    | .ok true => viableChain dao (y :: rest)

/-- pathes.rs `is_path_viable`: an empty intermediate list checks the two
endpoints directly, otherwise every consecutive pair of
`[start, intermediates…, end]` is checked. -/
def is_path_viable (dao : Store) (path : Path) : Except T4ACHError Bool :=
  if path.path.isEmpty then
    is_two_eles_connected dao path.start path.end_
  else
    viableChain dao (path.start :: path.path ++ [path.end_])

/-- math.rs fixed operating constant `ALPHA`. -/
def ALPHA : ℚ := 7/10

/-- math.rs `beta = alpha / (1000 * (1 - alpha))` as computed by
`NumberMapToValue::new` for the default `alpha`. -/
def BETA : ℚ := ALPHA / (1000 * (1 - ALPHA))

/-- math.rs `NumberMapToValue::eval`: domain error below zero, linear ramp on
`[0, 1000)`, exponential saturation above; `expQ` stands for `f64::exp`. -/
def NumberMapToValue.eval (expQ : ℚ → ℚ) (x : ℚ) : Except MathError ℚ :=
  if 0 > x then
    .error (.Domain "[0, +inf)" x)
  else if 0 ≤ x ∧ x < 1000 then
    .ok (ALPHA * x / 1000)
  else
    .ok (ALPHA + (1 - ALPHA) * (1 - expQ (-BETA * (x - 1000))))

/-- pathes.rs `calc_weight_single`: curve of the held quantity divided by the
base value. -/
def calc_weight_single (expQ : ℚ → ℚ) (dao : Store) (ele : String) :
    Except T4ACHError ℚ :=
  match get_element_base_value dao ele with
  | .error e => .error (.Database e)
  | .ok base_value =>
    match get_element_num_holding dao ele with
    | .error e => .error (.Database e)
    | .ok element_holding =>
      match NumberMapToValue.eval expQ element_holding with
      | .error e => .error (.Math e)
      | .ok weight1 => .ok (weight1 / base_value)

/-- One breadth-first expansion step of `constructing_tree`: each node of the
current level contributes its two recipe components in order; a zero-row
lookup makes the node a leaf; any other failure aborts. -/
def expandLevel (dao : Store) : List String → Except T4ACHError (List String)
  | [] => .ok []
  | x :: rest =>
    match get_element_components dao x with
    | .ok (component_a, component_b) =>
      match expandLevel dao rest with
      | .ok new_level => .ok (component_a :: component_b :: new_level)
      | .error e => .error e
    | .error (.FetchedZeroRow _) => expandLevel dao rest
    | .error e => .error (.Database e)

/-- The level loop of `constructing_tree`; the tree is represented by its
node list in insertion (breadth-first) order, root first. -/
def buildLoop (dao : Store) :
    Nat → List String → List String → Option (Except T4ACHError (List String))
  | 0, _, _ => none
  | fuel + 1, nodes, level =>
    match expandLevel dao level with
    | .error e => some (.error e)
    | .ok [] => some (.ok nodes)
    | .ok new_level => buildLoop dao fuel (nodes ++ new_level) new_level

/-- pathes.rs `constructing_tree`, as the insertion-ordered node list of the
decomposition tree. -/
def constructing_tree (fuel : Nat) (dao : Store) (ele : String) :
    Option (Except T4ACHError (List String)) :=
  buildLoop dao fuel [ele] [ele]

/-- The `sub_weight` accumulation loop of `calc_weight` over the non-root
nodes, starting from the given accumulator. -/
def sumSubWeights (expQ : ℚ → ℚ) (dao : Store) :
    List String → ℚ → Except T4ACHError ℚ
  | [], acc => .ok acc
  | x :: rest, acc =>
    match calc_weight_single expQ dao x with
    | .error e => .error e
    | .ok w => sumSubWeights expQ dao rest (acc + w)

/-- pathes.rs `calc_weight`: builds the decomposition tree, takes the root
weight, accumulates `sub_weight` starting at `1` over the non-root nodes, and
combines them with `rate = 0.7`. -/
def calc_weight (expQ : ℚ → ℚ) (fuel : Nat) (dao : Store) (ele : String) :
    Option (Except T4ACHError ℚ) :=
  match constructing_tree fuel dao ele with
  | none => none
  | some (.error e) => some (.error e)
  | some (.ok []) => none
  | some (.ok (root :: others)) =>
    let rate : ℚ := 7/10
    match calc_weight_single expQ dao root with
    | .error e => some (.error e)
    | .ok weight =>
      match sumSubWeights expQ dao others 1 with
      | .error e => some (.error e)
      | .ok sub_weight =>
        some (.ok (rate * weight + (1 - rate) * (1 / sub_weight)))

/-- Modelled from the spec, for comparison with `calc_weight`:
`TreeWeight(tree) = rate·Weight(root) + (1−rate)·(1 / Σ Weight(n) over all
nodes in tree including root)`, `rate` fixed at `0.7`. -/
def specTreeWeight (expQ : ℚ → ℚ) (fuel : Nat) (dao : Store) (ele : String) :
    Option (Except T4ACHError ℚ) :=
  match constructing_tree fuel dao ele with
  | none => none
  | some (.error e) => some (.error e)
  | some (.ok []) => none
  | some (.ok (root :: others)) =>
    let rate : ℚ := 7/10
    match calc_weight_single expQ dao root with
    | .error e => some (.error e)
    | .ok weight =>
      match sumSubWeights expQ dao others weight with
      | .error e => some (.error e)
      | .ok total =>
        some (.ok (rate * weight + (1 - rate) * (1 / total)))

/-- The accumulation loop of `calc_weight_path` over the intermediate
elements of a path. -/
def calcWeightPathGo (expQ : ℚ → ℚ) (fuel : Nat) (dao : Store) :
    List String → ℚ → Option (Except T4ACHError ℚ)
  | [], accumulated => some (.ok accumulated)
  | x :: rest, accumulated =>
    match calc_weight expQ fuel dao x with
    | none => none
    | some (.error e) => some (.error e)
    | some (.ok w) => calcWeightPathGo expQ fuel dao rest (accumulated + w)

/-- pathes.rs `calc_weight_path`: sum of `calc_weight` over the intermediate
elements only. -/
def calc_weight_path (expQ : ℚ → ℚ) (fuel : Nat) (dao : Store) (path : Path) :
    Option (Except T4ACHError ℚ) :=
  calcWeightPathGo expQ fuel dao path.path 0

/-- pathes.rs `calc_path_steps_1`: one path per element of the intersection
of the two relative sets. -/
def calc_path_steps_1 (dao : Store) (frm tto : String) :
    Except T4ACHError (List Path) :=
  match get_relatives dao frm with
  | .error e => .error e
  | .ok a_rel =>
    match get_relatives dao tto with
    | .error e => .error e
    | .ok b_rel =>
      .ok ((a_rel.filter (fun y => y ∈ b_rel)).map
        (fun path_inner => (Path.new frm tto).push path_inner))

/-- Inner loop of `calc_path_steps_2`: for a fixed `a`, pair it with every
`b` of the end's relatives that is connected to it. -/
def steps2InnerLoop (dao : Store) (frm tto a : String) :
    List String → Except T4ACHError (List Path)
  | [] => .ok []
  | b :: rest =>
    match is_two_eles_connected dao a b with
    | .error e => .error e
    | .ok c =>
      match steps2InnerLoop dao frm tto a rest with
      | .error e => .error e
      | .ok ps => .ok (if c then ((Path.new frm tto).push a).push b :: ps else ps)

/-- Outer loop of `calc_path_steps_2` over the start's relatives. -/
def steps2OuterLoop (dao : Store) (frm tto : String) :
    List String → List String → Except T4ACHError (List Path)
  | [], _ => .ok []
  | a :: arest, b_rel =>
    match steps2InnerLoop dao frm tto a b_rel with
    | .error e => .error e
    | .ok ps =>
      match steps2OuterLoop dao frm tto arest b_rel with
      | .error e => .error e
      | .ok ps2 => .ok (ps ++ ps2)

/-- pathes.rs `calc_path_steps_2`. -/
def calc_path_steps_2 (dao : Store) (frm tto : String) :
    Except T4ACHError (List Path) :=
  match get_relatives dao frm with
  | .error e => .error e
  | .ok a_rel =>
    match get_relatives dao tto with
    | .error e => .error e
    | .ok b_rel => steps2OuterLoop dao frm tto a_rel b_rel

/-- The outcome of one whole `calc_path` call: a result list, a propagated
error, or a Rust panic. -/
inductive SearchOutcome where
  | ok (pathes : List Path)
  | fail (e : T4ACHError)
  | panicked
  deriving DecidableEq, Repr

/-- State of the backtracking loop of `calc_path` for `steps_n ≥ 3`: the
depth-indexed candidate stack (`stack_f`, top level first, each level with
its next candidate first) and the emitted paths so far. -/
structure SearchState where
  stack : List (List String)
  acc : List Path
  deriving DecidableEq, Repr

/-- Result of one iteration of the backtracking loop. -/
inductive StepRes where
  | cont (s : SearchState)
  | done (pathes : List Path)
  | fail (e : T4ACHError)
  | panicked
  deriving DecidableEq, Repr

/-- One step of the `while let Some(v) = stack_f.last()` backtracking loop of
`calc_path`, on the current top level `v` and the stack below it (structural
recursion on the lower stack). -/
def backtrackAux : List String → List (List String) → List (List String)
  | v, rest =>
    if v.length = 1 then
      match rest with
      | [] => []
      | w :: rest2 =>
        if rest2 = [] ∧ w.tail = [] then []
        else backtrackAux w.tail rest2
    else if v.length = 0 then
      match rest with
      | [] => []
      | w :: rest2 => backtrackAux w rest2
    else
      v.tail :: rest

/-- The whole `while let Some(v) = stack_f.last()` backtracking loop of
`calc_path`, run after the freshly exhausted level has been popped. -/
def backtrack : List (List String) → List (List String)
  | [] => []
  | v :: rest => backtrackAux v rest

/-- The per-level `stack_f[x].last().unwrap()` reads performed while emitting
a path: `none` when some level is empty (the source would panic). -/
def headsOf : List (List String) → Option (List String)
  | [] => some []
  | l :: rest =>
    match l.head?, headsOf rest with
    | some h, some hs => some (h :: hs)
    | _, _ => none

/-- One iteration of the `'outer: loop` of `calc_path` for `steps_n ≥ 3`:
below full depth the relatives of the current candidate are pushed as a new
level; at full depth every remaining top-level candidate adjacent to the end
emits one path, then one candidate is consumed and the stack backtracks. -/
def searchStep (dao : Store) (frm tto : String) (steps_n : Nat)
    (end_relatives : List String) (s : SearchState) : StepRes :=
  match s.stack with
  | [] => .done s.acc
  | last_v :: rest =>
    if (last_v :: rest).length - 1 ≠ steps_n then
      match last_v with
      | [] => .panicked
      | p :: _ =>
        match get_relatives dao p with
        | .error e => .fail e
        | .ok new_elements =>
          .cont ⟨new_elements.reverse :: last_v :: rest, s.acc⟩
    else
      match rest with
      | [] => .panicked
      | w :: rest2 =>
        let stack2 := if w.tail = [] then backtrack rest2 else w.tail :: rest2
        match headsOf (rest.dropLast).reverse with
        | some mids =>
          .cont ⟨stack2, s.acc
            ++ (last_v.reverse.filter (fun x => x ∈ end_relatives)).map
              (fun x => Path.mk frm tto (mids ++ [x]) none)⟩
        | none =>
          match last_v.reverse.filter (fun x => x ∈ end_relatives) with
          | [] => .cont ⟨stack2, s.acc⟩
          | _ :: _ => .panicked

/-- Fuel-indexed iteration of `searchStep` until the loop exits. -/
def searchLoop (dao : Store) (frm tto : String) (steps_n : Nat)
    (end_relatives : List String) : Nat → SearchState → Option SearchOutcome
  | 0, _ => none
  | fuel + 1, s =>
    match searchStep dao frm tto steps_n end_relatives s with
    | .done ps => some (.ok ps)
    | .fail e => some (.fail e)
    | .panicked => some .panicked
    | .cont s2 => searchLoop dao frm tto steps_n end_relatives fuel s2

/-- Coercion of a `Result<Vec<Path>>` into a whole-call outcome. -/
def outcomeOf : Except T4ACHError (List Path) → SearchOutcome
  | .ok ps => .ok ps
  | .error e => .fail e

/-- pathes.rs `calc_path`: fast paths for `steps_n ∈ {0,1,2}`, the explicit
backtracking search for `steps_n ≥ 3`. -/
def calc_path (fuel : Nat) (dao : Store) (frm tto : String) (steps_n : Nat) :
    Option SearchOutcome :=
  if steps_n = 0 then
    match is_two_eles_connected dao frm tto with
    | .error e => some (.fail e)
    | .ok true => some (.ok [Path.new frm tto])
    | .ok false => some (.ok [])
  else if steps_n = 1 then
    some (outcomeOf (calc_path_steps_1 dao frm tto))
  else if steps_n = 2 then
    some (outcomeOf (calc_path_steps_2 dao frm tto))
  else
    match get_relatives dao tto with
    | .error e => some (.fail e)
    | .ok end_relatives =>
      searchLoop dao frm tto steps_n end_relatives fuel ⟨[[frm]], []⟩

/-- The weight-attachment loop of `calc_path_order_by_weight`. -/
def attachWeights (expQ : ℚ → ℚ) (fuel : Nat) (dao : Store) :
    List Path → Option (Except T4ACHError (List Path))
  | [] => some (.ok [])
  | p :: rest =>
    match calc_weight_path expQ fuel dao p with
    | none => none
    | some (.error e) => some (.error e)
    | some (.ok w) =>
      match attachWeights expQ fuel dao rest with
      | none => none
      | some (.error e) => some (.error e)
      | some (.ok ps) => some (.ok ({ p with cached_weight := some w } :: ps))

/-- The sort order realised by the inverse-less comparator of
`calc_path_order_by_weight`: `a` may precede `b` when `b`'s cached weight is
at most `a`'s.  The source unwraps the cached weight, which the caller has
always set; the model reads it with default `0`. -/
def weightDescLe (a b : Path) : Bool :=
  decide (b.cached_weight.getD 0 ≤ a.cached_weight.getD 0)

/-- pathes.rs `calc_path_order_by_weight`: search, cache each path's weight,
sort descending by weight (`sort_unstable_by` modelled by a merge sort with
the comparator's order). -/
def calc_path_order_by_weight (expQ : ℚ → ℚ) (fuel : Nat) (dao : Store)
    (frm tto : String) (steps_n : Nat) : Option SearchOutcome :=
  match calc_path fuel dao frm tto steps_n with
  | none => none
  | some (.fail e) => some (.fail e)
  | some .panicked => some .panicked
  | some (.ok pathes) =>
    match attachWeights expQ fuel dao pathes with
    | none => none
    | some (.error e) => some (.fail e)
    | some (.ok pathes2) => some (.ok (pathes2.mergeSort weightDescLe))

/-- The store-integrity guarantee of the spec's §4.1: at most one recipe row
per product name. -/
abbrev WellFormed (dao : Store) : Prop :=
  dao.recipes.Pairwise (fun r s => r.1 ≠ s.1)

/-- Membership of `b` in the relative set of `a`, phrased on the model of
`get_relatives`. -/
def RelMem (dao : Store) (a b : String) : Prop :=
  ∃ s, get_relatives dao a = .ok s ∧ b ∈ s

theorem mem_setInsert {s : List String} {x y : String} :
    y ∈ setInsert s x ↔ y ∈ s ∨ y = x := by
  by_cases hx : x ∈ s
  · simp only [setInsert, if_pos hx]
    exact ⟨Or.inl, fun h => h.elim id (fun he => he ▸ hx)⟩
  · simp [setInsert, if_neg hx]

theorem mem_setExtend {xs : List String} :
    ∀ {s : List String} {y : String}, y ∈ setExtend s xs ↔ y ∈ s ∨ y ∈ xs := by
  induction xs with
  | nil => simp [setExtend]
  | cons x rest ih =>
    intro s y
    have : setExtend s (x :: rest) = setExtend (setInsert s x) rest := rfl
    rw [this, ih, mem_setInsert]
    simp only [List.mem_cons]
    tauto

theorem mem_products {dao : Store} {u v : String} :
    v ∈ get_what_component_can_build dao u ↔
      ∃ a b, (v, a, b) ∈ dao.recipes ∧ (a = u ∨ b = u) := by
  simp only [get_what_component_can_build, List.mem_append, List.mem_map,
    List.mem_filter, decide_eq_true_eq]
  constructor
  · rintro (⟨r, ⟨hr, hcomp⟩, rfl⟩ | ⟨r, ⟨hr, hcomp⟩, rfl⟩)
    · exact ⟨r.2.1, r.2.2, hr, Or.inl hcomp⟩
    · exact ⟨r.2.1, r.2.2, hr, Or.inr hcomp⟩
  · rintro ⟨a, b, hab, (rfl | rfl)⟩
    · exact Or.inl ⟨(v, a, b), ⟨hab, rfl⟩, rfl⟩
    · exact Or.inr ⟨(v, a, b), ⟨hab, rfl⟩, rfl⟩

theorem filter_name_singleton {l : List (String × String × String)}
    (hp : l.Pairwise (fun r s => r.1 ≠ s.1)) {u a b : String}
    (h : (u, a, b) ∈ l) :
    l.filter (fun r => r.1 = u) = [(u, a, b)] := by
  induction l with
  | nil => cases h
  | cons r rest ih =>
    rcases List.pairwise_cons.mp hp with ⟨hr, hrest⟩
    rcases List.mem_cons.mp h with he | hmem
    · subst he
      have hnil : rest.filter (fun s => s.1 = u) = [] := by
        refine List.filter_eq_nil_iff.mpr (fun x hx => ?_)
        simp only [decide_eq_true_eq]
        exact fun he => (hr x hx) he.symm
      simp [List.filter_cons, hnil]
    · have hru : ¬(r.1 = u) := fun he => hr _ hmem (by rw [he])
      simp only [List.filter_cons, decide_eq_true_eq, if_neg hru]
      exact ih hrest hmem

theorem filter_name_nil {l : List (String × String × String)} {u : String}
    (h : ∀ a b, (u, a, b) ∉ l) :
    l.filter (fun r => r.1 = u) = [] := by
  refine List.filter_eq_nil_iff.mpr (fun x hx => ?_)
  simp only [decide_eq_true_eq]
  intro he
  apply h x.2.1 x.2.2
  have hxe : x = (u, x.2.1, x.2.2) := by
    rcases x with ⟨x1, x2, x3⟩
    simp_all
  rwa [← hxe]

theorem components_eq_of_mem {dao : Store} (hwf : WellFormed dao)
    {u a b : String} (h : (u, a, b) ∈ dao.recipes) :
    get_element_components dao u = .ok (a, b) := by
  unfold get_element_components
  rw [filter_name_singleton hwf h]

theorem components_eq_of_not_mem {dao : Store} {u : String}
    (h : ∀ a b, (u, a, b) ∉ dao.recipes) :
    get_element_components dao u = .error (.FetchedZeroRow u) := by
  unfold get_element_components
  rw [filter_name_nil h]

theorem recipe_unique {dao : Store} (hwf : WellFormed dao) {u a b a2 b2 : String}
    (h1 : (u, a, b) ∈ dao.recipes) (h2 : (u, a2, b2) ∈ dao.recipes) :
    a2 = a ∧ b2 = b := by
  have hs := filter_name_singleton hwf h1
  have : (u, a2, b2) ∈ dao.recipes.filter (fun r => r.1 = u) :=
    List.mem_filter.mpr ⟨h2, by simp⟩
  rw [hs] at this
  simpa using (List.mem_singleton.mp this)

theorem relatives_ok {dao : Store} (hwf : WellFormed dao) (e : String) :
    ∃ s, get_relatives dao e = .ok s := by
  by_cases h : ∃ a b, (e, a, b) ∈ dao.recipes
  · obtain ⟨a, b, hab⟩ := h
    exact ⟨_, by unfold get_relatives; rw [components_eq_of_mem hwf hab]⟩
  · push_neg at h
    exact ⟨_, by unfold get_relatives; rw [components_eq_of_not_mem h]⟩

theorem relMem_iff {dao : Store} (hwf : WellFormed dao) (u v : String) :
    RelMem dao u v ↔
      (∃ a b, (u, a, b) ∈ dao.recipes ∧ (v = a ∨ v = b))
        ∨ (∃ a b, (v, a, b) ∈ dao.recipes ∧ (a = u ∨ b = u)) := by
  by_cases h : ∃ a b, (u, a, b) ∈ dao.recipes
  · obtain ⟨a, b, hab⟩ := h
    unfold RelMem get_relatives
    rw [components_eq_of_mem hwf hab]
    simp only [Except.ok.injEq, exists_eq_left']
    rw [mem_setExtend, mem_setInsert, mem_setInsert, mem_products]
    constructor
    · rintro (((h0 | hva) | hvb) | hprod)
      · cases h0
      · exact Or.inl ⟨a, b, hab, Or.inl hva⟩
      · exact Or.inl ⟨a, b, hab, Or.inr hvb⟩
      · exact Or.inr hprod
    · rintro (⟨a2, b2, h2, hv⟩ | hprod)
      · obtain ⟨ha2, hb2⟩ := recipe_unique hwf hab h2
        subst ha2; subst hb2
        exact Or.inl (by tauto)
      · exact Or.inr hprod
  · push_neg at h
    unfold RelMem get_relatives
    rw [components_eq_of_not_mem h]
    simp only [Except.ok.injEq, exists_eq_left']
    rw [mem_setExtend, mem_products]
    constructor
    · rintro (h0 | hprod)
      · cases h0
      · exact Or.inr hprod
    · rintro (⟨a, b, hab, _⟩ | hprod)
      · exact absurd hab (h a b)
      · exact Or.inr hprod

theorem relMem_symm {dao : Store} (hwf : WellFormed dao) {u v : String} :
    RelMem dao u v ↔ RelMem dao v u := by
  rw [relMem_iff hwf, relMem_iff hwf]
  constructor
  · rintro (⟨a, b, hab, hc⟩ | ⟨a, b, hab, hc⟩)
    · exact Or.inr ⟨a, b, hab, by tauto⟩
    · exact Or.inl ⟨a, b, hab, by tauto⟩
  · rintro (⟨a, b, hab, hc⟩ | ⟨a, b, hab, hc⟩)
    · exact Or.inr ⟨a, b, hab, by tauto⟩
    · exact Or.inl ⟨a, b, hab, by tauto⟩

theorem connected_iff_relMem {dao : Store} {a b : String} :
    is_two_eles_connected dao a b = .ok true ↔ RelMem dao a b := by
  unfold is_two_eles_connected RelMem
  cases h : get_relatives dao a with
  | ok s =>
    simp only [Except.ok.injEq, exists_eq_left']
    rw [show (s.contains b) = (s.elem b) from rfl, List.elem_iff]
  | error e => simp

theorem connected_of_relMem {dao : Store} {a b : String} (h : RelMem dao a b) :
    is_two_eles_connected dao a b = .ok true :=
  connected_iff_relMem.mpr h

/-- Fixture store: the single recipe `Lux = Aer + Ignis`. -/
def storeLux : Store := ⟨[("Lux", "Aer", "Ignis")], [], []⟩

/-- Fixture store with a single primitive element `P` held `500` times at
base value `1`. -/
def storeP : Store := ⟨[], [("P", 1)], [("P", 500)]⟩

/-- Fixture store violating the at-most-one-recipe-row store contract for
`X`; `X` is reachable from `F` in three steps and adjacent to `T`. -/
def storeDup : Store :=
  ⟨[("X", "A", "B"), ("X", "C", "D"), ("T", "X", "Y"), ("P", "F", "A")], [], []⟩

/-- Fixture store over the `Lux` recipe with base values and holdings, for
exercising the ranking. -/
def storeW : Store :=
  ⟨[("Lux", "Aer", "Ignis")], [("Lux", 1), ("Aer", 1), ("Ignis", 1)],
    [("Lux", 100), ("Aer", 500), ("Ignis", 200)]⟩

/-- A stand-in exponential for witnesses whose computations never reach the
saturation branch of the curve. -/
def expQ0 : ℚ → ℚ := fun _ => 0

/-- C8: the weight curve's eval fails with a `Domain` error exactly when its
input is negative, returns a value on every non-negative input, and maps `0`
to `0`. -/
theorem curve_domain_error_iff_neg (expQ : ℚ → ℚ) (x : ℚ) :
    (x < 0 → NumberMapToValue.eval expQ x = .error (.Domain "[0, +inf)" x))
      ∧ (0 ≤ x → ∃ v, NumberMapToValue.eval expQ x = .ok v)
      ∧ NumberMapToValue.eval expQ 0 = .ok 0 := by
  refine ⟨fun hx => ?_, fun hx => ?_, ?_⟩
  · simp [NumberMapToValue.eval, hx]
  · unfold NumberMapToValue.eval
    rw [if_neg (by exact absurd · (not_lt.mpr hx))]
    split <;> exact ⟨_, rfl⟩
  · simp [NumberMapToValue.eval, ALPHA] <;> norm_num

/-- Witness for C8 at the inputs `-1`, `5` and `0`. -/
theorem curve_domain_error_iff_neg_witness :
    (NumberMapToValue.eval expQ0 (-1) = .error (.Domain "[0, +inf)" (-1)))
      ∧ (∃ v, NumberMapToValue.eval expQ0 5 = .ok v)
      ∧ NumberMapToValue.eval expQ0 0 = .ok 0 :=
  ⟨(curve_domain_error_iff_neg expQ0 (-1)).1 (by norm_num),
    (curve_domain_error_iff_neg expQ0 5).2.1 (by norm_num),
    (curve_domain_error_iff_neg expQ0 0).2.2⟩

/-- C10: the `PartialEq` and `Hash` implementations of `Path` depend only on
the start, the intermediate sequence and the end, never on the cached
weight. -/
theorem path_eq_hash_ignore_weight (s e : String) (mids : List String)
    (w1 w2 : Option ℚ) :
    Path.eqFn ⟨s, e, mids, w1⟩ ⟨s, e, mids, w2⟩ = true
      ∧ Path.hashInput ⟨s, e, mids, w1⟩ = Path.hashInput ⟨s, e, mids, w2⟩ := by
  simp [Path.eqFn, Path.hashInput]

/-- C3 (amended): a "no recipe" row set is signalled by the components query
as the `FetchedZeroRow` error variant — not as a non-error `Primitive`
variant — and both `get_relatives` and the tree expansion catch exactly this
variant as ordinary control flow, treating the element as primitive. -/
theorem no_recipe_flows_as_fetched_zero_row (dao : Store) (x : String)
    (h : ∀ r ∈ dao.recipes, r.1 ≠ x) :
    get_element_components dao x = .error (.FetchedZeroRow x)
      ∧ get_relatives dao x = .ok (setExtend [] (get_what_component_can_build dao x))
      ∧ expandLevel dao [x] = .ok [] := by
  have hc : get_element_components dao x = .error (.FetchedZeroRow x) :=
    components_eq_of_not_mem (fun a b hab => h _ hab rfl)
  refine ⟨hc, ?_, ?_⟩
  · unfold get_relatives
    rw [hc]
  · unfold expandLevel
    rw [hc]
    rfl

/-- Witness for C3 (amended) at the primitive element `Aer` of the `Lux`
fixture store. -/
theorem no_recipe_flows_as_fetched_zero_row_witness :
    get_element_components storeLux "Aer" = .error (.FetchedZeroRow "Aer")
      ∧ get_relatives storeLux "Aer"
          = .ok (setExtend [] (get_what_component_can_build storeLux "Aer"))
      ∧ expandLevel storeLux ["Aer"] = .ok [] :=
  no_recipe_flows_as_fetched_zero_row storeLux "Aer" (by decide)

/-- C3 counterexample: for the recipe-less element `Aer` of the `Lux` fixture
store, the components query does return an error value (the claim says it
returns a normal non-error variant). -/
theorem no_recipe_is_error_counterexample :
    (∀ r ∈ storeLux.recipes, r.1 ≠ "Aer")
      ∧ get_element_components storeLux "Aer"
          = .error (DBErrors.FetchedZeroRow "Aer") := by
  constructor
  · decide
  · rfl

/-- C5: under the store contract of at most one recipe row per product name,
connectivity is symmetric in its two element arguments. -/
theorem connected_symm (dao : Store) (hwf : WellFormed dao) (a b : String) :
    is_two_eles_connected dao a b = .ok true
      ↔ is_two_eles_connected dao b a = .ok true := by
  rw [connected_iff_relMem, connected_iff_relMem, relMem_symm hwf]

/-- Witness for C5 on the `Lux` fixture store. -/
theorem connected_symm_witness :
    storeLux.recipes.Pairwise (fun r s => r.1 ≠ s.1)
      ∧ (is_two_eles_connected storeLux "Aer" "Lux" = .ok true
          ↔ is_two_eles_connected storeLux "Lux" "Aer" = .ok true) :=
  ⟨by decide, connected_symm storeLux (by decide) "Aer" "Lux"⟩

theorem expandLevel_primitive {dao : Store} {x : String}
    (h : ∀ r ∈ dao.recipes, r.1 ≠ x) : expandLevel dao [x] = .ok [] := by
  unfold expandLevel
  rw [components_eq_of_not_mem (fun a b hab => h _ hab rfl)]
  rfl

/-- Per-element weight list of a node list, for stating the aggregate weight
formulas. -/
def weightsOf (expQ : ℚ → ℚ) (dao : Store) :
    List String → Except T4ACHError (List ℚ)
  | [] => .ok []
  | x :: rest =>
    match calc_weight_single expQ dao x with
    | .error e => .error e
    | .ok w =>
      match weightsOf expQ dao rest with
      | .error e => .error e
      | .ok ws => .ok (w :: ws)

theorem sumSubWeights_eq (expQ : ℚ → ℚ) (dao : Store) :
    ∀ (l : List String) (ws : List ℚ), weightsOf expQ dao l = .ok ws →
      ∀ acc : ℚ, sumSubWeights expQ dao l acc = .ok (acc + ws.sum) := by
  intro l
  induction l with
  | nil =>
    intro ws h acc
    unfold weightsOf at h
    injection h with h
    subst h
    simp [sumSubWeights]
  | cons x rest ih =>
    intro ws h acc
    unfold weightsOf at h
    cases hx : calc_weight_single expQ dao x with
    | error e => rw [hx] at h; cases h
    | ok w =>
      rw [hx] at h
      cases hrest : weightsOf expQ dao rest with
      | error e => rw [hrest] at h; cases h
      | ok ws2 =>
        rw [hrest] at h
        injection h with h
        subst h
        unfold sumSubWeights
        rw [hx]
        dsimp only
        rw [ih ws2 hrest (acc + w)]
        congr 1
        simp only [List.sum_cons]
        ring

/-- C1 (amended): for a tree whose node list is `root :: others`, the
computed tree weight is `rate·Weight(root) + (1−rate)·(1 / (1 + Σ Weight(n)
over the non-root nodes))` — the denominator starts from the constant `1`
and sums the non-root nodes only. -/
theorem calc_weight_formula (expQ : ℚ → ℚ) (fuel : Nat) (dao : Store)
    (ele root : String) (others : List String) (wr : ℚ) (ws : List ℚ)
    (ht : constructing_tree fuel dao ele = some (.ok (root :: others)))
    (hr : calc_weight_single expQ dao root = .ok wr)
    (hs : weightsOf expQ dao others = .ok ws) :
    calc_weight expQ fuel dao ele
      = some (.ok (7/10 * wr + (1 - 7/10) * (1 / (1 + ws.sum)))) := by
  unfold calc_weight
  rw [ht]
  dsimp only
  rw [hr]
  dsimp only
  rw [sumSubWeights_eq expQ dao others ws hs 1]

/-- Witness for C1 (amended) on the weighted `Lux` fixture store. -/
theorem calc_weight_formula_witness :
    calc_weight expQ0 2 storeW "Lux"
      = some (.ok (7/10 * (7/100)
          + (1 - 7/10) * (1 / (1 + ([7/20, 7/50] : List ℚ).sum)))) :=
  calc_weight_formula expQ0 2 storeW "Lux" "Lux" ["Aer", "Ignis"] (7/100)
    [7/20, 7/50] (by decide)
    (by
      simp [calc_weight_single, get_element_base_value,
        get_element_num_holding, storeW, expQ0, NumberMapToValue.eval, ALPHA,
        List.filter] <;> norm_num)
    (by
      simp [weightsOf, calc_weight_single, get_element_base_value,
        get_element_num_holding, storeW, expQ0, NumberMapToValue.eval, ALPHA,
        List.filter] <;> norm_num)

/-- C1 counterexample: on a single-node tree with `Weight(root) = 7/20`, the
code computes `109/200` while the spec's formula (denominator summing all
nodes including the root) yields `1543/1400`. -/
theorem calc_weight_denominator_counterexample :
    calc_weight expQ0 2 storeP "P" = some (.ok (109/200))
      ∧ specTreeWeight expQ0 2 storeP "P" = some (.ok (1543/1400))
      ∧ ((109 : ℚ)/200 ≠ 1543/1400) := by
  refine ⟨by
    simp [calc_weight, constructing_tree, buildLoop, expandLevel,
      get_element_components, storeP, sumSubWeights, calc_weight_single,
      get_element_base_value, get_element_num_holding, expQ0,
      NumberMapToValue.eval, ALPHA, List.filter] <;> norm_num, by
    simp [specTreeWeight, constructing_tree, buildLoop, expandLevel,
      get_element_components, storeP, sumSubWeights, calc_weight_single,
      get_element_base_value, get_element_num_holding, expQ0,
      NumberMapToValue.eval, ALPHA, List.filter] <;> norm_num, by norm_num⟩

/-- C4 (amended): a primitive element decomposes into the single-node tree
`[x]`, and its computed tree weight is `0.7·Weight(x) + 0.3`, not
`Weight(x)`. -/
theorem primitive_tree_weight (expQ : ℚ → ℚ) (fuel : Nat) (dao : Store)
    (x : String) (w : ℚ)
    (hprim : ∀ r ∈ dao.recipes, r.1 ≠ x)
    (hw : calc_weight_single expQ dao x = .ok w) :
    constructing_tree (fuel + 1) dao x = some (.ok [x])
      ∧ calc_weight expQ (fuel + 1) dao x = some (.ok (7/10 * w + 3/10)) := by
  have ht : constructing_tree (fuel + 1) dao x = some (.ok [x]) := by
    unfold constructing_tree buildLoop
    rw [expandLevel_primitive hprim]
  refine ⟨ht, ?_⟩
  unfold calc_weight
  rw [ht]
  dsimp only
  rw [hw]
  dsimp only
  simp [sumSubWeights] <;> norm_num

/-- Witness for C4 (amended) on the primitive fixture store. -/
theorem primitive_tree_weight_witness :
    constructing_tree 2 storeP "P" = some (.ok ["P"])
      ∧ calc_weight expQ0 2 storeP "P" = some (.ok (7/10 * (7/20) + 3/10)) :=
  primitive_tree_weight expQ0 1 storeP "P" (7/20) (by decide)
    (by
    simp [calc_weight_single, get_element_base_value, get_element_num_holding,
      storeP, expQ0, NumberMapToValue.eval, ALPHA, List.filter] <;> norm_num)

/-- C4 counterexample: for the primitive `P` with `Weight(P) = 7/20`, the
single-node tree is built but the computed tree weight `109/200` differs
from `Weight(P)`. -/
theorem primitive_weight_counterexample :
    constructing_tree 2 storeP "P" = some (.ok ["P"])
      ∧ calc_weight expQ0 2 storeP "P" = some (.ok (109/200))
      ∧ calc_weight_single expQ0 storeP "P" = .ok (7/20)
      ∧ ((109 : ℚ)/200 ≠ 7/20) := by
  refine ⟨by decide, by
    simp [calc_weight, constructing_tree, buildLoop, expandLevel,
      get_element_components, storeP, sumSubWeights, calc_weight_single,
      get_element_base_value, get_element_num_holding, expQ0,
      NumberMapToValue.eval, ALPHA, List.filter] <;> norm_num, by
    simp [calc_weight_single, get_element_base_value, get_element_num_holding,
      storeP, expQ0, NumberMapToValue.eval, ALPHA, List.filter] <;> norm_num, by norm_num⟩

/-- C7: with `steps_n = 0`, a successful `calc_path` call returns a
non-empty list exactly when the endpoints are connected, and in that case the
list is the single zero-intermediate path. -/
theorem calc_path_steps0_iff_connected (fuel : Nat) (dao : Store)
    (a b : String) (ps : List Path)
    (h : calc_path fuel dao a b 0 = some (.ok ps)) :
    (ps ≠ [] ↔ is_two_eles_connected dao a b = .ok true)
      ∧ (ps ≠ [] → ps = [Path.new a b] ∧ (Path.new a b).path.length = 0) := by
  unfold calc_path at h
  rw [if_pos rfl] at h
  cases hc : is_two_eles_connected dao a b with
  | error e => rw [hc] at h; cases h
  | ok c =>
    rw [hc] at h
    cases c with
    | true =>
      simp only [Option.some.injEq, SearchOutcome.ok.injEq] at h
      subst h
      simp [Path.new]
    | false =>
      simp only [Option.some.injEq, SearchOutcome.ok.injEq] at h
      subst h
      simp

/-- Witness for C7 on the `Lux` fixture store with connected endpoints. -/
theorem calc_path_steps0_iff_connected_witness :
    (([Path.new "Aer" "Lux"] : List Path) ≠ []
        ↔ is_two_eles_connected storeLux "Aer" "Lux" = .ok true)
      ∧ (([Path.new "Aer" "Lux"] : List Path) ≠ []
        → [Path.new "Aer" "Lux"] = [Path.new "Aer" "Lux"]
            ∧ (Path.new "Aer" "Lux").path.length = 0) :=
  calc_path_steps0_iff_connected 5 storeLux "Aer" "Lux" _ (by decide)

/-- C6: every successful ranked search returns its paths with cached weights
in non-increasing order (descending sort by weight). -/
theorem ranked_weights_desc (expQ : ℚ → ℚ) (fuel : Nat) (dao : Store)
    (frm tto : String) (steps_n : Nat) (ps : List Path)
    (h : calc_path_order_by_weight expQ fuel dao frm tto steps_n
      = some (.ok ps)) :
    ps.Pairwise (fun a b =>
      b.cached_weight.getD 0 ≤ a.cached_weight.getD 0) := by
  unfold calc_path_order_by_weight at h
  cases hc : calc_path fuel dao frm tto steps_n with
  | none => rw [hc] at h; cases h
  | some oc =>
    rw [hc] at h
    cases oc with
    | fail e => cases h
    | panicked => cases h
    | ok pathes =>
      dsimp only at h
      cases hw : attachWeights expQ fuel dao pathes with
      | none => rw [hw] at h; cases h
      | some r =>
        rw [hw] at h
        cases r with
        | error e => cases h
        | ok pathes2 =>
          dsimp only at h
          simp only [Option.some.injEq, SearchOutcome.ok.injEq] at h
          subst h
          have hs := @List.sorted_mergeSort Path weightDescLe
            (fun a b c hab hbc => by
              simp only [weightDescLe, decide_eq_true_eq] at *
              exact le_trans hbc hab)
            (fun a b => by
              simp only [weightDescLe, Bool.or_eq_true, decide_eq_true_eq]
              exact le_total _ _)
            pathes2
          exact hs.imp (fun hab => by
            simpa [weightDescLe] using hab)

/-- Witness for C6: the single ranked path from `Aer` to `Ignis` through one
intermediate in the weighted fixture store. -/
theorem ranked_weights_desc_witness :
    ([{ start := "Aer", end_ := "Ignis", path := ["Lux"],
        cached_weight := some (37301/149000) }] : List Path).Pairwise
      (fun a b => b.cached_weight.getD 0 ≤ a.cached_weight.getD 0) :=
  ranked_weights_desc expQ0 5 storeW "Aer" "Ignis" 1 _ (by
    simp [calc_path, calc_path_steps_1, get_relatives, get_element_components,
      get_what_component_can_build, storeW, setExtend, setInsert, outcomeOf,
      calc_path_order_by_weight, attachWeights, calc_weight_path,
      calcWeightPathGo, calc_weight, constructing_tree, buildLoop, expandLevel,
      sumSubWeights, calc_weight_single, get_element_base_value,
      get_element_num_holding, expQ0, NumberMapToValue.eval, ALPHA,
      List.filter, Path.new, Path.push] <;> norm_num)

/-- C9: the backtracking search enforces no node distinctness: on the `Lux`
fixture store the three-step search from `Aer` to `Ignis` returns a path
whose chain visits the same element more than once. -/
theorem backtracking_allows_repeats :
    ∃ ps p, calc_path 20 storeLux "Aer" "Ignis" 3 = some (.ok ps)
      ∧ p ∈ ps ∧ ¬ (p.start :: p.path ++ [p.end_]).Nodup := by
  refine ⟨[⟨"Aer", "Ignis", ["Lux", "Ignis", "Lux"], none⟩,
    ⟨"Aer", "Ignis", ["Lux", "Aer", "Lux"], none⟩],
    ⟨"Aer", "Ignis", ["Lux", "Ignis", "Lux"], none⟩, ?_, ?_, ?_⟩
  · decide
  · decide
  · decide

/-- Last element of `a :: l`. -/
def lastOf {α : Type} : α → List α → α
  | a, [] => a
  | _, x :: l => lastOf x l

theorem lastOf_append {α : Type} (b : α) :
    ∀ (l : List α) (a : α), lastOf a (l ++ [b]) = b := by
  intro l
  induction l with
  | nil => intro a; rfl
  | cons x l ih => intro a; exact ih x

theorem chain_snoc {α : Type} {r : α → α → Prop} :
    ∀ (l : List α) (a b : α), List.Chain r a l → r (lastOf a l) b →
      List.Chain r a (l ++ [b]) := by
  intro l
  induction l with
  | nil => intro a b _ hr; exact List.Chain.cons hr List.Chain.nil
  | cons x l ih =>
    intro a b hc hr
    rcases List.chain_cons.mp hc with ⟨hax, hc⟩
    exact List.chain_cons.mpr ⟨hax, ih x b hc hr⟩

theorem viableChain_of_chain (dao : Store) :
    ∀ (l : List String) (a : String), List.Chain (RelMem dao) a l →
      viableChain dao (a :: l) = .ok true := by
  intro l
  induction l with
  | nil => intro a _; rfl
  | cons y rest ih =>
    intro a hc
    rcases List.chain_cons.mp hc with ⟨hay, hc⟩
    unfold viableChain
    rw [connected_of_relMem hay]
    exact ih y hc

theorem headsOf_length : ∀ (ls : List (List String)) (out : List String),
    headsOf ls = some out → out.length = ls.length := by
  intro ls
  induction ls with
  | nil =>
    intro out h
    injection h with h
    subst h
    rfl
  | cons l ls ih =>
    intro out h
    unfold headsOf at h
    cases hl : l.head? with
    | none => rw [hl] at h; cases h
    | some c =>
      rw [hl] at h
      cases hrec : headsOf ls with
      | none => rw [hrec] at h; cases h
      | some out2 =>
        rw [hrec] at h
        dsimp only at h
        injection h with h
        subst h
        simp [ih out2 hrec]

theorem headsOf_append_singleton (w : List String) :
    ∀ (ls : List (List String)) (out : List String),
      headsOf (ls ++ [w]) = some out →
      ∃ hs c, headsOf ls = some hs ∧ w.head? = some c ∧ out = hs ++ [c] := by
  intro ls
  induction ls with
  | nil =>
    intro out h
    simp only [List.nil_append] at h
    unfold headsOf at h
    cases hw : w.head? with
    | none => rw [hw] at h; cases h
    | some c =>
      rw [hw] at h
      injection h with h
      exact ⟨[], c, rfl, rfl, h.symm⟩
  | cons l ls ih =>
    intro out h
    simp only [List.cons_append] at h
    unfold headsOf at h
    cases hl : l.head? with
    | none => rw [hl] at h; cases h
    | some c0 =>
      rw [hl] at h
      cases hrec : headsOf (ls ++ [w]) with
      | none => rw [hrec] at h; cases h
      | some out2 =>
        rw [hrec] at h
        dsimp only at h
        injection h with h
        subst h
        obtain ⟨hs, c, h1, h2, h3⟩ := ih out2 hrec
        subst h3
        refine ⟨c0 :: hs, c, ?_, h2, rfl⟩
        unfold headsOf
        rw [hl, h1]

/-- Invariant of the backtracking stack (top level first): every level below
the top is non-empty, each level's entries are relatives of the chosen (head)
element of the level below, and the bottom level holds only the start
element. -/
def stackOK (dao : Store) (frm : String) : List (List String) → Prop
  | [] => True
  | [l0] => ∀ x ∈ l0, x = frm
  | l :: w :: rest =>
    (∃ c, w.head? = some c ∧ ∀ x ∈ l, RelMem dao c x)
      ∧ stackOK dao frm (w :: rest)

theorem stackOK_pop {dao : Store} {frm : String} :
    ∀ {l : List String} {r : List (List String)},
      stackOK dao frm (l :: r) → stackOK dao frm r := by
  intro l r h
  cases r with
  | nil => trivial
  | cons w r2 => exact h.2

theorem stackOK_tailTop {dao : Store} {frm : String} :
    ∀ {w : List String} {r : List (List String)},
      stackOK dao frm (w :: r) → stackOK dao frm (w.tail :: r) := by
  intro w r h
  cases r with
  | nil => exact fun x hx => h x (List.mem_of_mem_tail hx)
  | cons w2 r2 =>
    obtain ⟨⟨c, hc, hrel⟩, h2⟩ := h
    exact ⟨⟨c, hc, fun x hx => hrel x (List.mem_of_mem_tail hx)⟩, h2⟩

theorem backtrackAux_stackOK {dao : Store} {frm : String} :
    ∀ (rest : List (List String)) (v : List String),
      stackOK dao frm (v :: rest) → stackOK dao frm (backtrackAux v rest) := by
  intro rest
  induction rest with
  | nil =>
    intro v h
    unfold backtrackAux
    split
    · trivial
    · split
      · trivial
      · exact stackOK_tailTop h
  | cons w rest2 ih =>
    intro v h
    unfold backtrackAux
    split
    · show stackOK dao frm
        (if rest2 = [] ∧ w.tail = [] then [] else backtrackAux w.tail rest2)
      split
      · trivial
      · exact ih w.tail (stackOK_tailTop (stackOK_pop h))
    · split
      · show stackOK dao frm (backtrackAux w rest2)
        exact ih w (stackOK_pop h)
      · exact stackOK_tailTop h

theorem backtrack_stackOK {dao : Store} {frm : String}
    {r : List (List String)} (h : stackOK dao frm r) :
    stackOK dao frm (backtrack r) := by
  cases r with
  | nil => trivial
  | cons v rest => exact backtrackAux_stackOK rest v h

theorem backtrackAux_length_le :
    ∀ (rest : List (List String)) (v : List String),
      (backtrackAux v rest).length ≤ (v :: rest).length := by
  intro rest
  induction rest with
  | nil =>
    intro v
    unfold backtrackAux
    split
    · simp
    · split
      · simp
      · simp
  | cons w rest2 ih =>
    intro v
    unfold backtrackAux
    split
    · show (if rest2 = [] ∧ w.tail = [] then ([] : List (List String))
        else backtrackAux w.tail rest2).length ≤ (v :: w :: rest2).length
      split
      · simp
      · have := ih w.tail
        simp only [List.length_cons] at *
        omega
    · split
      · show (backtrackAux w rest2).length ≤ (v :: w :: rest2).length
        have := ih w
        simp only [List.length_cons] at *
        omega
      · simp

theorem backtrack_length_le (r : List (List String)) :
    (backtrack r).length ≤ r.length := by
  cases r with
  | nil => simp [backtrack]
  | cons v rest =>
    have := backtrackAux_length_le rest v
    simpa [backtrack] using this

theorem chain_of_stackOK {dao : Store} {frm : String} :
    ∀ (rest : List (List String)) (l : List String),
      stackOK dao frm (l :: rest) → rest ≠ [] →
      ∀ mids, headsOf (rest.dropLast).reverse = some mids →
      ∀ x ∈ l, List.Chain (RelMem dao) frm (mids ++ [x]) := by
  intro rest
  induction rest with
  | nil => intro l _ hne; exact absurd rfl hne
  | cons w rest2 ih =>
    intro l h _ mids hm x hx
    cases rest2 with
    | nil =>
      have hmids : mids = [] := by
        simp only [List.dropLast_single, List.reverse_nil] at hm
        injection hm with hm
        exact hm.symm
      subst hmids
      obtain ⟨⟨c, hc, hrel⟩, h0⟩ := h
      have hcf : c = frm := h0 c (List.mem_of_mem_head? hc)
      subst hcf
      exact List.Chain.cons (hrel x hx) List.Chain.nil
    | cons w2 rest3 =>
      have hdl : (w :: w2 :: rest3).dropLast = w :: (w2 :: rest3).dropLast := by
        simp
      rw [hdl, List.reverse_cons] at hm
      obtain ⟨hs, c, h1, h2, h3⟩ := headsOf_append_singleton w _ _ hm
      subst h3
      obtain ⟨⟨c2, hc2, hrel⟩, h2'⟩ := h
      have hcc : c = c2 := by
        rw [hc2] at h2
        injection h2 with h2
        exact h2.symm
      subst hcc
      have hchain := ih w h2' (by simp) hs h1 c (List.mem_of_mem_head? hc2)
      have hlast : lastOf frm (hs ++ [c]) = c := lastOf_append c hs frm
      have hext := chain_snoc (hs ++ [c]) frm x hchain (by rw [hlast]; exact hrel x hx)
      simpa using hext

theorem searchStep_preserves {dao : Store} (hwf : WellFormed dao)
    {frm tto : String} {n : Nat} {endRel : List String}
    (hend : get_relatives dao tto = .ok endRel) {s s2 : SearchState}
    (hOK : stackOK dao frm s.stack) (hlen : s.stack.length ≤ n + 1)
    (hacc : ∀ p ∈ s.acc, is_path_viable dao p = .ok true ∧ p.path.length = n)
    (h : searchStep dao frm tto n endRel s = .cont s2) :
    stackOK dao frm s2.stack ∧ s2.stack.length ≤ n + 1
      ∧ ∀ p ∈ s2.acc, is_path_viable dao p = .ok true ∧ p.path.length = n := by
  obtain ⟨stack, acc⟩ := s
  cases stack with
  | nil => exact absurd h (by simp [searchStep])
  | cons last_v rest =>
    simp only [SearchState.mk.injEq] at hOK hlen hacc ⊢
    unfold searchStep at h
    dsimp only at h
    by_cases hd : (last_v :: rest).length - 1 = n
    · rw [if_neg (fun hne => hne hd)] at h
      cases rest with
      | nil => cases h
      | cons w rest2 =>
        dsimp only at h
        have hrest_len : rest2.length + 1 = n := by
          simpa using hd
        have hstack2OK : stackOK dao frm
            (if w.tail = [] then backtrack rest2 else w.tail :: rest2) := by
          by_cases ht : w.tail = []
          · rw [if_pos ht]
            exact backtrack_stackOK (stackOK_pop (stackOK_pop hOK))
          · rw [if_neg ht]
            exact stackOK_tailTop (stackOK_pop hOK)
        have hstack2len :
            (if w.tail = [] then backtrack rest2 else w.tail :: rest2).length
              ≤ n + 1 := by
          by_cases ht : w.tail = []
          · rw [if_pos ht]
            have := backtrack_length_le rest2
            omega
          · rw [if_neg ht]
            simp only [List.length_cons]
            omega
        cases hm : headsOf ((w :: rest2).dropLast).reverse with
        | some mids =>
          rw [hm] at h
          injection h with h
          subst h
          refine ⟨hstack2OK, hstack2len, ?_⟩
          intro p hp
          rcases List.mem_append.mp hp with hold | hnew
          · exact hacc p hold
          · rcases List.mem_map.mp hnew with ⟨x, hxf, rfl⟩
            have hxl : x ∈ last_v :=
              List.mem_reverse.mp (List.mem_filter.mp hxf).1
            have hxe : x ∈ endRel := by
              have := (List.mem_filter.mp hxf).2
              simpa using this
            have hchain := chain_of_stackOK (w :: rest2) last_v hOK (by simp)
              mids hm x hxl
            have hxt : RelMem dao x tto :=
              (relMem_symm hwf).mp ⟨endRel, hend, hxe⟩
            have hfull : List.Chain (RelMem dao) frm ((mids ++ [x]) ++ [tto]) :=
              chain_snoc (mids ++ [x]) frm tto hchain
                (by rw [lastOf_append]; exact hxt)
            constructor
            · unfold is_path_viable
              rw [if_neg (by simp)]
              exact viableChain_of_chain dao ((mids ++ [x]) ++ [tto]) frm hfull
            · have hml := headsOf_length _ _ hm
              simp only [List.length_reverse, List.length_dropLast,
                List.length_cons] at hml
              simp only [List.length_append, List.length_singleton, hml]
              omega
        | none =>
          rw [hm] at h
          cases hf : last_v.reverse.filter (fun x => decide (x ∈ endRel)) with
          | nil =>
            rw [hf] at h
            injection h with h
            subst h
            exact ⟨hstack2OK, hstack2len, hacc⟩
          | cons y ys =>
            rw [hf] at h
            cases h
    · rw [if_pos hd] at h
      cases last_v with
      | nil => cases h
      | cons p tl =>
        dsimp only at h
        cases hrel : get_relatives dao p with
        | error e => rw [hrel] at h; cases h
        | ok new_elements =>
          rw [hrel] at h
          injection h with h
          subst h
          refine ⟨⟨⟨p, rfl, ?_⟩, hOK⟩, ?_, hacc⟩
          · exact fun x hx => ⟨new_elements, hrel, List.mem_reverse.mp hx⟩
          · simp only [List.length_cons] at hlen hd ⊢
            omega

theorem searchStep_done_eq {dao : Store} {frm tto : String} {n : Nat}
    {endRel : List String} {s : SearchState} {out : List Path}
    (h : searchStep dao frm tto n endRel s = .done out) : out = s.acc := by
  obtain ⟨stack, acc⟩ := s
  cases stack with
  | nil =>
    unfold searchStep at h
    injection h with h
    exact h.symm
  | cons last_v rest =>
    unfold searchStep at h
    dsimp only at h
    by_cases hd : (last_v :: rest).length - 1 = n
    · rw [if_neg (fun hne => hne hd)] at h
      cases rest with
      | nil => cases h
      | cons w rest2 =>
        dsimp only at h
        cases hm : headsOf ((w :: rest2).dropLast).reverse with
        | some mids => rw [hm] at h; cases h
        | none =>
          rw [hm] at h
          cases hf : last_v.reverse.filter (fun x => decide (x ∈ endRel)) with
          | nil => rw [hf] at h; cases h
          | cons y ys => rw [hf] at h; cases h
    · rw [if_pos hd] at h
      cases last_v with
      | nil => cases h
      | cons p tl =>
        dsimp only at h
        cases hrel : get_relatives dao p with
        | error e => rw [hrel] at h; cases h
        | ok new_elements => rw [hrel] at h; cases h

theorem searchLoop_sound {dao : Store} (hwf : WellFormed dao)
    {frm tto : String} {n : Nat} {endRel : List String}
    (hend : get_relatives dao tto = .ok endRel) :
    ∀ (fuel : Nat) (s : SearchState),
      stackOK dao frm s.stack → s.stack.length ≤ n + 1 →
      (∀ p ∈ s.acc, is_path_viable dao p = .ok true ∧ p.path.length = n) →
      ∀ ps, searchLoop dao frm tto n endRel fuel s = some (.ok ps) →
      ∀ p ∈ ps, is_path_viable dao p = .ok true ∧ p.path.length = n := by
  intro fuel
  induction fuel with
  | zero =>
    intro s _ _ _ ps hl
    cases hl
  | succ fuel ih =>
    intro s hOK hlen hacc ps hl
    unfold searchLoop at hl
    cases hstep : searchStep dao frm tto n endRel s with
    | done out =>
      rw [hstep] at hl
      injection hl with hl
      injection hl with hl
      subst hl
      have := searchStep_done_eq hstep
      subst this
      exact hacc
    | fail e => rw [hstep] at hl; cases hl
    | panicked => rw [hstep] at hl; cases hl
    | cont s2 =>
      rw [hstep] at hl
      obtain ⟨h1, h2, h3⟩ := searchStep_preserves hwf hend hOK hlen hacc hstep
      exact ih s2 h1 h2 h3 ps hl

theorem calc_path_steps_1_good {dao : Store} (hwf : WellFormed dao)
    {frm tto : String} {ps : List Path}
    (h : calc_path_steps_1 dao frm tto = .ok ps) :
    ∀ p ∈ ps, is_path_viable dao p = .ok true ∧ p.path.length = 1 := by
  unfold calc_path_steps_1 at h
  cases ha : get_relatives dao frm with
  | error e => rw [ha] at h; cases h
  | ok a_rel =>
    rw [ha] at h
    cases hb : get_relatives dao tto with
    | error e => rw [hb] at h; cases h
    | ok b_rel =>
      rw [hb] at h
      dsimp only at h
      injection h with h
      subst h
      intro p hp
      rcases List.mem_map.mp hp with ⟨y, hy, rfl⟩
      have hyy := List.mem_filter.mp hy
      have h1 : RelMem dao frm y := ⟨a_rel, ha, hyy.1⟩
      have h2 : RelMem dao y tto :=
        (relMem_symm hwf).mp ⟨b_rel, hb, by simpa using hyy.2⟩
      constructor
      · show is_path_viable dao ⟨frm, tto, [y], none⟩ = .ok true
        unfold is_path_viable
        rw [if_neg (by simp)]
        exact viableChain_of_chain dao ([y] ++ [tto]) frm
          (List.Chain.cons h1 (List.Chain.cons h2 List.Chain.nil))
      · rfl

theorem steps2InnerLoop_good {dao : Store} (hwf : WellFormed dao)
    {frm tto a : String} (ha : RelMem dao frm a) :
    ∀ (bs : List String), (∀ b ∈ bs, RelMem dao tto b) →
      ∀ ps, steps2InnerLoop dao frm tto a bs = .ok ps →
      ∀ p ∈ ps, is_path_viable dao p = .ok true ∧ p.path.length = 2 := by
  intro bs
  induction bs with
  | nil =>
    intro _ ps h p hp
    injection h with h
    subst h
    cases hp
  | cons b bs ih =>
    intro hbs ps h p hp
    unfold steps2InnerLoop at h
    cases hc : is_two_eles_connected dao a b with
    | error e => rw [hc] at h; cases h
    | ok c =>
      rw [hc] at h
      cases hrec : steps2InnerLoop dao frm tto a bs with
      | error e => rw [hrec] at h; cases h
      | ok ps0 =>
        rw [hrec] at h
        dsimp only at h
        injection h with h
        subst h
        have hrest := ih (fun x hx => hbs x (List.mem_cons_of_mem b hx)) ps0 hrec
        cases c with
        | false =>
          rw [if_neg (by simp)] at hp
          exact hrest p hp
        | true =>
          rw [if_pos rfl] at hp
          rcases List.mem_cons.mp hp with rfl | hmem
          · have hab : RelMem dao a b := connected_iff_relMem.mp hc
            have hbt : RelMem dao b tto :=
              (relMem_symm hwf).mp (hbs b (List.mem_cons_self b bs))
            constructor
            · show is_path_viable dao ⟨frm, tto, [a, b], none⟩ = .ok true
              unfold is_path_viable
              rw [if_neg (by simp)]
              exact viableChain_of_chain dao ([a, b] ++ [tto]) frm
                (List.Chain.cons ha (List.Chain.cons hab
                  (List.Chain.cons hbt List.Chain.nil)))
            · rfl
          · exact hrest p hmem

theorem steps2OuterLoop_good {dao : Store} (hwf : WellFormed dao)
    {frm tto : String} :
    ∀ (as2 : List String), (∀ a ∈ as2, RelMem dao frm a) →
      ∀ (bs : List String), (∀ b ∈ bs, RelMem dao tto b) →
      ∀ ps, steps2OuterLoop dao frm tto as2 bs = .ok ps →
      ∀ p ∈ ps, is_path_viable dao p = .ok true ∧ p.path.length = 2 := by
  intro as2
  induction as2 with
  | nil =>
    intro _ bs _ ps h p hp
    injection h with h
    subst h
    cases hp
  | cons a as3 ih =>
    intro has bs hbs ps h p hp
    unfold steps2OuterLoop at h
    cases hinner : steps2InnerLoop dao frm tto a bs with
    | error e => rw [hinner] at h; cases h
    | ok ps1 =>
      rw [hinner] at h
      cases hrec : steps2OuterLoop dao frm tto as3 bs with
      | error e => rw [hrec] at h; cases h
      | ok ps2 =>
        rw [hrec] at h
        dsimp only at h
        injection h with h
        subst h
        rcases List.mem_append.mp hp with h1 | h2
        · exact steps2InnerLoop_good hwf
            (has a (List.mem_cons_self a as3)) bs hbs ps1 hinner p h1
        · exact ih (fun x hx => has x (List.mem_cons_of_mem a hx)) bs hbs
            ps2 hrec p h2

theorem calc_path_steps_2_good {dao : Store} (hwf : WellFormed dao)
    {frm tto : String} {ps : List Path}
    (h : calc_path_steps_2 dao frm tto = .ok ps) :
    ∀ p ∈ ps, is_path_viable dao p = .ok true ∧ p.path.length = 2 := by
  unfold calc_path_steps_2 at h
  cases ha : get_relatives dao frm with
  | error e => rw [ha] at h; cases h
  | ok a_rel =>
    rw [ha] at h
    cases hb : get_relatives dao tto with
    | error e => rw [hb] at h; cases h
    | ok b_rel =>
      rw [hb] at h
      exact steps2OuterLoop_good hwf a_rel (fun a hx => ⟨a_rel, ha, hx⟩)
        b_rel (fun b hx => ⟨b_rel, hb, hx⟩) ps h

/-- C2 (amended): for every store obeying the §4.1 store contract of at most
one recipe row per product name, every path returned by a successful
`calc_path` call passes `is_path_viable` and carries exactly `steps_n`
intermediate elements. -/
theorem calc_path_paths_viable (dao : Store) (hwf : WellFormed dao)
    (fuel : Nat) (frm tto : String) (steps_n : Nat) (ps : List Path)
    (h : calc_path fuel dao frm tto steps_n = some (.ok ps)) :
    ∀ p ∈ ps, is_path_viable dao p = .ok true ∧ p.path.length = steps_n := by
  unfold calc_path at h
  by_cases h0 : steps_n = 0
  · subst h0
    rw [if_pos rfl] at h
    cases hc : is_two_eles_connected dao frm tto with
    | error e => rw [hc] at h; cases h
    | ok c =>
      rw [hc] at h
      cases c with
      | true =>
        dsimp only at h
        injection h with h
        injection h with h
        subst h
        intro p hp
        have hpe := List.mem_singleton.mp hp
        subst hpe
        constructor
        · unfold is_path_viable
          rw [if_pos (by simp [Path.new])]
          exact hc
        · rfl
      | false =>
        dsimp only at h
        injection h with h
        injection h with h
        subst h
        intro p hp
        cases hp
  · rw [if_neg h0] at h
    by_cases h1 : steps_n = 1
    · subst h1
      rw [if_pos rfl] at h
      cases hs : calc_path_steps_1 dao frm tto with
      | error e => rw [hs] at h; cases h
      | ok ps2 =>
        rw [hs] at h
        injection h with h
        injection h with h
        subst h
        exact calc_path_steps_1_good hwf hs
    · rw [if_neg h1] at h
      by_cases h2 : steps_n = 2
      · subst h2
        rw [if_pos rfl] at h
        cases hs : calc_path_steps_2 dao frm tto with
        | error e => rw [hs] at h; cases h
        | ok ps2 =>
          rw [hs] at h
          injection h with h
          injection h with h
          subst h
          exact calc_path_steps_2_good hwf hs
      · rw [if_neg h2] at h
        cases hend : get_relatives dao tto with
        | error e => rw [hend] at h; cases h
        | ok endRel =>
          rw [hend] at h
          refine searchLoop_sound hwf hend fuel ⟨[[frm]], []⟩ ?_ ?_ ?_ ps h
          · intro x hx
            simpa using hx
          · simp
          · intro p hp
            cases hp

/-- Witness for C2 (amended): the one-step search on the `Lux` fixture
store. -/
theorem calc_path_paths_viable_witness :
    is_path_viable storeLux ⟨"Aer", "Ignis", ["Lux"], none⟩ = .ok true
      ∧ (⟨"Aer", "Ignis", ["Lux"], none⟩ : Path).path.length = 1 :=
  calc_path_paths_viable storeLux (by decide) 5 "Aer" "Ignis" 1
    [⟨"Aer", "Ignis", ["Lux"], none⟩] (by decide)
    ⟨"Aer", "Ignis", ["Lux"], none⟩ (by decide)

/-- C2 counterexample: on a store that violates the at-most-one-recipe-row
store contract (two rows for `X`), the three-step search from `F` to `T`
succeeds and returns the path `F→P→A→X→T`, but `is_path_viable` on that path
does not return `Ok(true)` — it aborts with a store-integrity error when it
queries the relatives of `X`. -/
theorem calc_path_viable_counterexample :
    calc_path 30 storeDup "F" "T" 3
        = some (.ok [⟨"F", "T", ["P", "A", "X"], none⟩])
      ∧ is_path_viable storeDup ⟨"F", "T", ["P", "A", "X"], none⟩ ≠ .ok true := by
  constructor
  · decide
  · decide

end T4ACH
